import Mathlib

/-!
Shallow embedding of the module-resolution core of tfsec
(`internal/pkg/parser/load_module.go`) together with proofs about its
specified behaviour.

The embedding mirrors the Go source:

* `stripIndexes` models `regexp.MustCompile("\\[.+?\\]").ReplaceAllString(s, "")`
  (Go regexp semantics: leftmost match, non-greedy `.+?`, `.` does not match
  a newline).
* `getModuleKeyName` models `(*Evaluator).getModuleKeyName`.
* `cleanPath` / `goClean` / `goJoin` model Go's `filepath.Clean` and
  `filepath.Join` for two arguments on a Unix platform (path separator `/`).
* `loadModule`, `loadModules`, `getModuleBlocks` model the functions of the
  same names; external collaborators (the HCL file parser, directory listing,
  block expansion) are parameters of the model, exactly as they are opaque
  collaborators of the Go code.
-/

/-! ## Bracket-group removal (the `\[.+?\]` regex) -/

/-- One left-to-right pass implementing `ReplaceAllString` for the pattern
`\[.+?\]`.  `none` is the state outside a candidate match; `some buf` means a
`[` has been consumed and `buf` holds (reversed) the characters consumed by
`.+?` so far.  A match closes at the first `]` after at least one consumed
character; `.` never matches a newline, so a newline aborts the candidate and
flushes the buffered text verbatim. -/
def stripGo : Option (List Char) → List Char → List Char
  | none, [] => []
  | none, c :: rest =>
    if c = '[' then stripGo (some []) rest else c :: stripGo none rest
  | some buf, [] => '[' :: buf.reverse
  | some buf, c :: rest =>
    if c = ']' then
      if buf.isEmpty then stripGo (some [']']) rest
      else stripGo none rest
    else if c = '\n' then ('[' :: buf.reverse) ++ '\n' :: stripGo none rest
    else stripGo (some (c :: buf)) rest

/-- `indexRegExp.ReplaceAllString(s, "")` from `getModuleKeyName`. -/
def stripIndexes (l : List Char) : List Char :=
  stripGo none l

/-! ## Splitting and joining (strings.Split, the key-name loop) -/

/-- `strings.Split` on a one-character separator, as a function on character
lists.  Like Go, the empty input yields one empty field. -/
def splitOnChar (sep : Char) : List Char → List (List Char)
  | [] => [[]]
  | c :: rest =>
    let r := splitOnChar sep rest
    if c = sep then [] :: r
    else
      match r with
      | h :: t => (c :: h) :: t
      | [] => [[c]]

/-- `strings.TrimPrefix(s, "module.")`. -/
def trimModuleDot : List Char → List Char
  | 'm' :: 'o' :: 'd' :: 'u' :: 'l' :: 'e' :: '.' :: rest => rest
  | l => l

/-- The accumulation loop of `getModuleKeyName`: trim `module.` from every
segment and join the segments with `.`. -/
def joinKeySegs : List (List Char) → List Char
  | [] => []
  | [s] => trimModuleDot s
  | s :: rest => trimModuleDot s ++ '.' :: joinKeySegs rest

/-- The string handed to `indexRegExp.ReplaceAllString` by
`getModuleKeyName`: the label itself in the root context, otherwise the
trimmed, dot-joined context chain with `"." + name` appended. -/
def keyInput (moduleName name : String) : List Char :=
  if moduleName = "root" then name.data
  else joinKeySegs (splitOnChar ':' moduleName.data) ++ '.' :: name.data

/-- `(*Evaluator).getModuleKeyName`, with the evaluator's `moduleName` made an
explicit first argument. -/
def getModuleKeyName (moduleName name : String) : String :=
  ⟨stripIndexes (keyInput moduleName name)⟩

example : getModuleKeyName "root" "x[0][1]" = "x" := by decide
example : getModuleKeyName "module.a:module.b[0]" "c" = "a.b.c" := by decide
example : getModuleKeyName "root" "abc" = "abc" := by decide
example : getModuleKeyName "root" "x]" = "x]" := by decide

/-! ## Filesystem paths: `filepath.Clean` and `filepath.Join` on Unix -/

/-- `strings.Join(elems, "/")` on character lists. -/
def joinSlash : List (List Char) → List Char
  | [] => []
  | [e] => e
  | e :: rest => e ++ '/' :: joinSlash rest

/-- One step of the element-processing loop of `filepath.Clean`, maintaining
a stack (head = most recent surviving element).  Empty and `.` elements are
dropped; `..` pops a non-`..` top, is dropped at the root, and is kept when
the path is relative and nothing can be popped. -/
def cleanStep (rooted : Bool) (stack : List (List Char)) (e : List Char) :
    List (List Char) :=
  if e = [] ∨ e = ['.'] then stack
  else if e = ['.', '.'] then
    match stack with
    | t :: stk =>
      if t = ['.', '.'] then
        if rooted then stack else ['.', '.'] :: stack
      else stk
    | [] => if rooted then [] else [['.', '.']]
  else e :: stack

/-- The element-processing loop of `filepath.Clean`: fold `cleanStep` over
the `/`-separated elements left to right. -/
def cleanElems (rooted : Bool) (stack : List (List Char))
    (elems : List (List Char)) : List (List Char) :=
  elems.foldl (cleanStep rooted) stack

/-- Rendering step of `filepath.Clean`: re-join the surviving elements,
restore the leading `/` for rooted paths, and map an empty result to `/` or
`.`. -/
def renderPath (rooted : Bool) (out : List (List Char)) : List Char :=
  let s := joinSlash out
  if rooted then (if s = [] then ['/'] else '/' :: s)
  else (if s = [] then ['.'] else s)

/-- `filepath.Clean` on a Unix platform, on character lists. -/
def cleanPath (p : List Char) : List Char :=
  match p with
  | [] => ['.']
  | c :: rest =>
    let rooted : Bool := c = '/'
    renderPath rooted ((cleanElems rooted [] (splitOnChar '/' (c :: rest))).reverse)

/-- `filepath.Clean` on `String`. -/
def goClean (s : String) : String :=
  ⟨cleanPath s.data⟩

/-- `filepath.Join(a, b)` on a Unix platform: skip leading empty parts, then
`Clean` the `/`-joined remainder; the all-empty join is the empty string. -/
def goJoin (a b : String) : String :=
  if a = "" then (if b = "" then "" else goClean b)
  else ⟨cleanPath (a.data ++ '/' :: b.data)⟩

/-- `strings.HasPrefix(source, "./") || strings.HasPrefix(source, "../")`
with the Unix path separator, as in `loadModule`. -/
def isRelativeSource (s : String) : Bool :=
  match s.data with
  | '.' :: '/' :: _ => true
  | '.' :: '.' :: '/' :: _ => true
  | _ => false

/-- A path is absolute on Unix iff it starts with `/`. -/
def isAbs (s : String) : Bool :=
  match s.data with
  | c :: _ => c = '/'
  | [] => false

example : goClean "/proj/modules/a/../shared" = "/proj/modules/shared" := by decide
example : goJoin "/proj/modules/a" "../shared" = "/proj/modules/shared" := by decide
example : goClean "" = "." := by decide
example : goClean "a//b/./c/.." = "a/b" := by decide
example : goClean "/.." = "/" := by decide
example : goClean "a/../../b" = "../b" := by decide
example : goJoin "" "x/y/.." = "x" := by decide
example : goJoin "a" "" = "a" := by decide

/-! ## Data model -/

/-- An evaluated attribute value (`cty.Value`).  `loadModule` only inspects
whether the value's type is `cty.String`, so the model keeps the string case
and collapses every other type into `nonString`. -/
inductive CtyValue where
  | str (s : String)
  | nonString
deriving DecidableEq, Repr

/-- A parsed configuration block (`block.Block`) as seen by the resolver: its
type, its (first) label, its evaluated attributes in order, and the rendered
source range used in structural error messages. -/
structure ModBlock where
  typ : String
  label : String
  attrs : List (String × CtyValue)
  rng : String
deriving DecidableEq, Repr

/-- One entry of the externally supplied module metadata
(`modules.json`): a dotted key and a directory relative to the project
root. -/
structure MetadataEntry where
  key : String
  dir : String
deriving DecidableEq, Repr

/-- The result of `LoadBlocksFromFile` for one file of the resolved
directory: raw blocks, ignore directives, and an optional parse error (the
parser may return partial results alongside an error).  Raw blocks, ignores
and error payloads are opaque to the resolver and are modelled as `Nat`
tokens. -/
structure HCLFile where
  fileBlocks : List Nat
  fileIgnores : List Nat
  parseResult : Option Nat
deriving DecidableEq, Repr

/-- The filesystem collaborator: `LoadDirectory(path, stopOnHCLError)`
either fails (the resolved path is missing/unreadable) or yields the parse
outcomes of the files found there, in enumeration order. -/
structure FS where
  loadDirectory : String → Bool → Except Nat (List HCLFile)

/-- `block.New(fileBlock, moduleCtx, b, nil)`: a raw file block wrapped with
the owning module block as its lexical parent (the fresh module evaluation
context carries no information relevant to the resolver). -/
structure LoadedBlock where
  raw : Nat
  moduleParent : ModBlock
deriving DecidableEq, Repr

/-- `block.NewHCLModule(rootPath, modulePath, blocks, ignores)`. -/
structure HCLModule where
  rootPath : String
  modulePath : String
  blocks : List LoadedBlock
  ignores : List Nat
deriving DecidableEq, Repr

/-- `ModuleDefinition` from `load_module.go`. -/
structure ModuleDefinition where
  name : String
  path : String
  definition : ModBlock
  modules : List HCLModule
deriving DecidableEq, Repr

/-- Failures of `getModuleBlocks`: the directory could not be read, or a
file failed to parse while `stopOnHCLError` was set. -/
inductive GetBlocksErr where
  | dir (code : Nat)
  | hclParse (code : Nat)
deriving DecidableEq, Repr

/-- The cause carried inside a `moduleLoadError`. -/
inductive LoadCause where
  | missingSource
  | blocksFailed (e : GetBlocksErr)
deriving DecidableEq, Repr

/-- The error type of `loadModule`: the two structural `fmt.Errorf` failures
(which carry only the block's rendered range) and `*moduleLoadError` (which
carries the literal source string and a cause, and is the only kind
recognised by `errors.As` in `loadModules`). -/
inductive LoadModuleErr where
  | noLabel (rng : String)
  | noSource (rng : String)
  | moduleLoad (source : String) (cause : LoadCause)
deriving DecidableEq, Repr

/-- `moduleLoadError` as stored in the deduplicated `loadErrors` list. -/
structure ModuleLoadError where
  source : String
  err : LoadCause
deriving DecidableEq, Repr

/-- The evaluator state consumed by the resolver, with the external
collaborator `expandBlocks` as an opaque function field. -/
structure Evaluator where
  moduleName : String
  projectRootPath : String
  modulePath : String
  moduleMetadata : Option (List MetadataEntry)
  blocks : List ModBlock
  expandBlocks : List ModBlock → List ModBlock
  fs : FS

/-! ## The resolver functions -/

/-- The source-extraction loop of `loadModule`: `source` starts empty and is
overwritten by each string-typed `source` attribute in order. -/
def extractSource (attrs : List (String × CtyValue)) : String :=
  attrs.foldl
    (fun acc p =>
      if p.1 = "source" then
        match p.2 with
        | CtyValue.str s => s
        | CtyValue.nonString => acc
      else acc)
    ""

/-- The metadata scan of `loadModule`: first entry whose key matches. -/
def scanMetadata (name : String) : List MetadataEntry → Option MetadataEntry
  | [] => none
  | m :: rest => if m.key = name then some m else scanMetadata name rest

/-- The per-file loop of `getModuleBlocks`: a failing file aborts the whole
call when `stopOnHCLError` is set and is skipped entirely (blocks *and*
ignores) otherwise; a succeeding file's blocks are wrapped with the owning
block as parent and its ignores are appended. -/
def collectFileBlocks (b : ModBlock) (stopOnHCLError : Bool) :
    List HCLFile → List LoadedBlock → List Nat →
    Except GetBlocksErr (List LoadedBlock × List Nat)
  | [], blocks, ignores => .ok (blocks, ignores)
  | f :: rest, blocks, ignores =>
    match f.parseResult with
    | some err =>
      if stopOnHCLError then .error (.hclParse err)
      else collectFileBlocks b stopOnHCLError rest blocks ignores
    | none =>
      collectFileBlocks b stopOnHCLError rest
        (blocks ++ f.fileBlocks.map (fun rb => LoadedBlock.mk rb b))
        (ignores ++ f.fileIgnores)

/-- `getModuleBlocks` from `load_module.go`. -/
def getModuleBlocks (fs : FS) (b : ModBlock) (modulePath : String)
    (stopOnHCLError : Bool) : Except GetBlocksErr (List LoadedBlock × List Nat) :=
  match fs.loadDirectory modulePath stopOnHCLError with
  | .error e => .error (.dir e)
  | .ok files => collectFileBlocks b stopOnHCLError files [] []

/-- The metadata half of `loadModule`'s resolution: the module path taken
from the metadata cache (cleaned join of the project root with the entry's
directory), or the Go code's empty-string sentinel when there is no
metadata or no entry with a matching key.  A cleaned path is never empty,
so the sentinel is unambiguous. -/
def metaModulePath (e : Evaluator) (label : String) : String :=
  match e.moduleMetadata with
  | some entries =>
    match scanMetadata (getModuleKeyName e.moduleName label) entries with
    | some m => goClean (goJoin e.projectRootPath m.dir)
    | none => ""
  | none => ""

/-- The resolution policy of `loadModule`: the metadata directory when the
key matches, otherwise the local-relative-path fallback, which rejects any
source not starting with `./` or `../` with a `moduleLoadError` whose cause
is `missing source code`. -/
def resolveModulePath (e : Evaluator) (b : ModBlock) (source : String) :
    Except LoadModuleErr String :=
  if metaModulePath e b.label = "" then
    if isRelativeSource source then .ok (goJoin e.modulePath source)
    else .error (.moduleLoad source .missingSource)
  else .ok (metaModulePath e b.label)

/-- `loadModule` from `load_module.go`. -/
def loadModule (e : Evaluator) (b : ModBlock) (stopOnHCLError : Bool) :
    Except LoadModuleErr ModuleDefinition :=
  if b.label = "" then .error (.noLabel b.rng)
  else if extractSource b.attrs = "" then .error (.noSource b.rng)
  else
    match resolveModulePath e b (extractSource b.attrs) with
    | .error err => .error err
    | .ok modulePath =>
      match getModuleBlocks e.fs b modulePath stopOnHCLError with
      | .error err => .error (.moduleLoad (extractSource b.attrs) (.blocksFailed err))
      | .ok (blocks, ignores) =>
        .ok (ModuleDefinition.mk b.label modulePath b
          [HCLModule.mk e.projectRootPath modulePath blocks ignores])

/-- The loop of `loadModules` over the expanded module blocks, made
observable: besides the returned `ModuleDefinition`s it threads the
deduplicated `loadErrors` list (reported as one consolidated warning at the
end of the call) and the list of structural errors emitted as individual
warnings. -/
def loadModulesGo (e : Evaluator) (stopOnHCLError : Bool) :
    List ModBlock → List ModuleDefinition → List ModuleLoadError →
    List LoadModuleErr →
    List ModuleDefinition × List ModuleLoadError × List LoadModuleErr
  | [], defs, les, warns => (defs, les, warns)
  | mb :: rest, defs, les, warns =>
    if mb.label = "" then loadModulesGo e stopOnHCLError rest defs les warns
    else
      match loadModule e mb stopOnHCLError with
      | .error (.moduleLoad src cause) =>
        if les.any (fun fm => fm.source = src) then
          loadModulesGo e stopOnHCLError rest defs les warns
        else
          loadModulesGo e stopOnHCLError rest defs
            (les ++ [ModuleLoadError.mk src cause]) warns
      | .error (.noLabel r) =>
        loadModulesGo e stopOnHCLError rest defs les (warns ++ [.noLabel r])
      | .error (.noSource r) =>
        loadModulesGo e stopOnHCLError rest defs les (warns ++ [.noSource r])
      | .ok md => loadModulesGo e stopOnHCLError rest (defs ++ [md]) les warns

/-- The candidate instances scanned by `loadModules`:
`e.expandBlocks(e.blocks.OfType("module"))`. -/
def expandedModuleBlocks (e : Evaluator) : List ModBlock :=
  e.expandBlocks (e.blocks.filter (fun b => b.typ = "module"))

/-- `loadModules` from `load_module.go`, returning the definitions together
with the deduplicated load failures and the structural warnings. -/
def loadModules (e : Evaluator) (stopOnHCLError : Bool) :
    List ModuleDefinition × List ModuleLoadError × List LoadModuleErr :=
  loadModulesGo e stopOnHCLError (expandedModuleBlocks e) [] [] []

/-! ## Analysis predicates for the Key Resolver -/

/-- `true` iff the list contains neither `[` nor `]`. -/
def noBrackets (l : List Char) : Bool :=
  l.all (fun c => !(c = '[' || c = ']'))

/-- Recogniser for well-bracketed strings, mirroring the states of
`stripGo`: state 0 is outside any group (a stray `]` is rejected), state 1
is immediately after a `[` (at least one non-newline character must
follow), state 2 is inside a group waiting for the closing `]`. -/
def wbGo : Nat → List Char → Bool
  | 0, [] => true
  | 0, c :: rest =>
    if c = '[' then wbGo 1 rest
    else if c = ']' then false
    else wbGo 0 rest
  | 1, [] => false
  | 1, c :: rest => if c = '\n' then false else wbGo 2 rest
  | 2, [] => false
  | 2, c :: rest =>
    if c = ']' then wbGo 0 rest
    else if c = '\n' then false
    else wbGo 2 rest
  | _ + 3, _ => false

/-! ## Lemmas about the Key Resolver -/

theorem stripGo_none_id (l : List Char) (h : '[' ∉ l) : stripGo none l = l := by
  induction l with
  | nil => rfl
  | cons c rest ih =>
    have hc : ¬ c = '[' := fun hc => h (hc ▸ List.mem_cons_self c rest)
    have hr : '[' ∉ rest := fun hr => h (List.mem_cons_of_mem c hr)
    simp [stripGo, hc, ih hr]

theorem wbGo_strip (l : List Char) :
    (wbGo 0 l = true → noBrackets (stripGo none l) = true)
    ∧ (wbGo 1 l = true → noBrackets (stripGo (some []) l) = true)
    ∧ (∀ buf, buf ≠ [] → wbGo 2 l = true → noBrackets (stripGo (some buf) l) = true) := by
  induction l with
  | nil =>
    refine ⟨fun _ => rfl, fun h => by simp [wbGo] at h, fun buf hb h => by simp [wbGo] at h⟩
  | cons c rest ih =>
    obtain ⟨ih0, ih1, ih2⟩ := ih
    refine ⟨?_, ?_, ?_⟩
    · intro h
      by_cases hbr : c = '['
      · subst hbr
        simp only [wbGo, if_pos rfl] at h
        simpa [stripGo] using ih1 h
      · by_cases hcl : c = ']'
        · subst hcl; simp [wbGo] at h
        · simp only [wbGo, if_neg hbr, if_neg hcl] at h
          simp [stripGo, hbr, noBrackets, hcl]
          simpa [noBrackets] using ih0 h
    · intro h
      by_cases hnl : c = '\n'
      · subst hnl; simp [wbGo] at h
      · simp only [wbGo, if_neg hnl] at h
        by_cases hcl : c = ']'
        · subst hcl
          simpa [stripGo] using ih2 [']'] (by simp) h
        · simp only [stripGo, if_neg hcl, if_neg hnl]
          exact ih2 [c] (by simp) h
    · intro buf hb h
      by_cases hcl : c = ']'
      · subst hcl
        simp only [wbGo, if_pos rfl] at h
        cases buf with
        | nil => exact absurd rfl hb
        | cons x xs =>
          simp only [stripGo, if_pos rfl, List.isEmpty_cons, Bool.false_eq_true,
            if_false]
          exact ih0 h
      · by_cases hnl : c = '\n'
        · subst hnl; simp [wbGo, hcl] at h
        · simp only [wbGo, if_neg hcl, if_neg hnl] at h
          simp only [stripGo, if_neg hcl, if_neg hnl]
          exact ih2 (c :: buf) (by simp) h

theorem stripIndexes_noBrackets {l : List Char} (h : wbGo 0 l = true) :
    noBrackets (stripIndexes l) = true :=
  (wbGo_strip l).1 h

/-! ## Claim C1 -/

/-- C1 (amended): the Key Resolver returns a bracket-free label unchanged in
the root context; `"x[0][1]"` loses both bracketed groups; context
`"module.a:module.b[0]"` with label `"c"` yields `"a.b.c"`; and for every
context and label whose derived pre-strip key is well-bracketed (every `[`
opens a group closed by a later `]` with at least one intervening
non-newline character, and no stray `]`), the output contains neither `[`
nor `]`. -/
theorem C1_keyResolver :
    (∀ L : String, '[' ∉ L.data → ']' ∉ L.data → getModuleKeyName "root" L = L)
    ∧ getModuleKeyName "root" "x[0][1]" = "x"
    ∧ getModuleKeyName "module.a:module.b[0]" "c" = "a.b.c"
    ∧ (∀ mn n : String, wbGo 0 (keyInput mn n) = true →
        noBrackets (getModuleKeyName mn n).data = true) := by
  refine ⟨?_, by decide, by decide, ?_⟩
  · intro L h1 _
    show (⟨stripIndexes (keyInput "root" L)⟩ : String) = L
    rw [keyInput, if_pos rfl, stripIndexes, stripGo_none_id L.data h1]
  · intro mn n h
    exact stripIndexes_noBrackets h

/-- Witness for C1: the amended theorem applied at concrete inputs. -/
theorem C1_keyResolver_witness :
    getModuleKeyName "root" "abc" = "abc"
    ∧ noBrackets (getModuleKeyName "module.a:module.b[0]" "c").data = true :=
  ⟨C1_keyResolver.1 "abc" (by decide) (by decide),
   C1_keyResolver.2.2.2 "module.a:module.b[0]" "c" (by decide)⟩

/-- Counterexample to C1 as stated: a label carrying a stray `]` (no
bracketed group matches the non-greedy regex) passes through the Key
Resolver unchanged, so the output does contain a `]`. -/
theorem C1_keyResolver_cex :
    getModuleKeyName "root" "x]" = "x]"
    ∧ ']' ∈ (getModuleKeyName "root" "x]").data := by
  refine ⟨by decide, by decide⟩

/-! ## Lemmas about `filepath.Clean` / `filepath.Join` -/

theorem splitOnChar_no_sep (sep : Char) :
    ∀ p, ∀ e ∈ splitOnChar sep p, sep ∉ e := by
  intro p
  induction p with
  | nil =>
    intro e he
    have h0 : e = [] := by simpa [splitOnChar] using he
    subst h0
    exact List.not_mem_nil sep
  | cons c rest ih =>
    intro e he
    by_cases hc : c = sep
    · simp only [splitOnChar, if_pos hc] at he
      rcases List.mem_cons.mp he with he | he
      · subst he; exact List.not_mem_nil sep
      · exact ih e he
    · simp only [splitOnChar, if_neg hc] at he
      cases hr : splitOnChar sep rest with
      | nil =>
        rw [hr] at he
        have h1 : e = [c] := by simpa using he
        subst h1
        intro hmem
        have h2 : sep = c := by simpa using hmem
        exact hc h2.symm
      | cons h t =>
        rw [hr] at he
        rcases List.mem_cons.mp he with he | he
        · subst he
          intro hmem
          rcases List.mem_cons.mp hmem with h3 | h3
          · exact hc h3.symm
          · exact ih h (hr ▸ List.mem_cons_self h t) h3
        · exact ih e (hr ▸ List.mem_cons_of_mem h he)

theorem splitOnChar_single {sep : Char} :
    ∀ {e : List Char}, sep ∉ e → splitOnChar sep e = [e] := by
  intro e
  induction e with
  | nil => intro _; rfl
  | cons c e' ih =>
    intro h
    have hc : ¬ c = sep := fun hc => h (hc ▸ List.mem_cons_self c e')
    have he' : sep ∉ e' := fun hm => h (List.mem_cons_of_mem c hm)
    simp only [splitOnChar, if_neg hc, ih he']

theorem splitOnChar_append {sep : Char} (r : List Char) :
    ∀ {e : List Char}, sep ∉ e →
      splitOnChar sep (e ++ sep :: r) = e :: splitOnChar sep r := by
  intro e
  induction e with
  | nil => intro _; simp [splitOnChar]
  | cons c e' ih =>
    intro h
    have hc : ¬ c = sep := fun hc => h (hc ▸ List.mem_cons_self c e')
    have he' : sep ∉ e' := fun hm => h (List.mem_cons_of_mem c hm)
    simp only [List.cons_append, splitOnChar, if_neg hc]
    have hln : splitOnChar sep (List.append e' (sep :: r)) = e' :: splitOnChar sep r :=
      ih he'
    rw [hln]

theorem split_joinSlash :
    ∀ l : List (List Char), l ≠ [] → (∀ e ∈ l, '/' ∉ e) →
      splitOnChar '/' (joinSlash l) = l := by
  intro l
  induction l with
  | nil => intro h; exact absurd rfl h
  | cons e t ih =>
    intro _ hall
    cases t with
    | nil => exact splitOnChar_single (hall e (List.mem_singleton_self e))
    | cons f t' =>
      show splitOnChar '/' (e ++ '/' :: joinSlash (f :: t')) = _
      rw [splitOnChar_append _ (hall e (List.mem_cons_self e _)),
        ih (by simp) (fun x hx => hall x (List.mem_cons_of_mem e hx))]

theorem joinSlash_ne_nil :
    ∀ {l : List (List Char)}, l ≠ [] → (∀ e ∈ l, e ≠ []) → joinSlash l ≠ [] := by
  intro l hl hall
  cases l with
  | nil => exact absurd rfl hl
  | cons e t =>
    cases t with
    | nil => exact hall e (List.mem_singleton_self e)
    | cons f t' =>
      show e ++ '/' :: joinSlash (f :: t') ≠ []
      cases e <;> simp

theorem joinSlash_head {a : Char} {e1 : List Char} (out' : List (List Char)) :
    ∃ s', joinSlash ((a :: e1) :: out') = a :: s' := by
  cases out' with
  | nil => exact ⟨e1, rfl⟩
  | cons f t => exact ⟨e1 ++ '/' :: joinSlash (f :: t), rfl⟩

/-- Elements that `cleanStep` simply pushes. -/
def plainElem (e : List Char) : Prop :=
  e ≠ [] ∧ e ≠ ['.'] ∧ e ≠ ['.', '.'] ∧ '/' ∉ e

/-- Invariant of the `filepath.Clean` element stack: the surviving elements
are plain elements on top of a (relative-path-only) run of `..` elements. -/
def stackOK (rooted : Bool) (stk : List (List Char)) : Prop :=
  ∃ norm dd, stk = norm ++ dd ∧
    (∀ x ∈ norm, plainElem x) ∧
    (∀ x ∈ dd, x = ['.', '.']) ∧
    (rooted = true → dd = [])

theorem cleanStep_stackOK {rooted : Bool} {stk : List (List Char)}
    {e : List Char} (he : '/' ∉ e) (h : stackOK rooted stk) :
    stackOK rooted (cleanStep rooted stk e) := by
  obtain ⟨norm, dd, hstk, hnorm, hdd, hr⟩ := h
  by_cases h1 : e = [] ∨ e = ['.']
  · rw [cleanStep.eq_def, if_pos h1]
    exact ⟨norm, dd, hstk, hnorm, hdd, hr⟩
  · by_cases h2 : e = ['.', '.']
    · subst h2
      cases stk with
      | nil =>
        cases rooted with
        | true =>
          show stackOK true ([] : List (List Char))
          exact ⟨[], [], rfl, by simp, by simp, fun _ => rfl⟩
        | false =>
          show stackOK false [['.', '.']]
          exact ⟨[], [['.', '.']], rfl, by simp, by simp,
            fun hc => absurd hc (by decide)⟩
      | cons t stk' =>
        by_cases ht : t = ['.', '.']
        · have hnn : norm = [] := by
            cases norm with
            | nil => rfl
            | cons n0 norm' =>
              exfalso
              have hh : t = n0 := by simpa using congrArg List.headI hstk
              exact (hnorm n0 (List.mem_cons_self n0 norm')).2.2.1 (hh ▸ ht)
          subst hnn
          have hdeq : t :: stk' = dd := by simpa using hstk
          have hddstk : ∀ x ∈ t :: stk', x = ['.', '.'] := fun x hx => hdd x (hdeq ▸ hx)
          cases rooted with
          | true =>
            exfalso
            rw [hr rfl] at hstk
            simp at hstk
          | false =>
            show stackOK false
              (if t = ['.', '.'] then ['.', '.'] :: t :: stk' else stk')
            rw [if_pos ht]
            refine ⟨[], ['.', '.'] :: t :: stk', rfl, by simp, ?_,
              fun hc => absurd hc (by decide)⟩
            intro x hx
            rcases List.mem_cons.mp hx with hx | hx
            · exact hx
            · exact hddstk x hx
        · show stackOK rooted
            (if t = ['.', '.'] then
              (if rooted then t :: stk' else ['.', '.'] :: t :: stk') else stk')
          rw [if_neg ht]
          cases norm with
          | nil =>
            have hdeq : t :: stk' = dd := by simpa using hstk
            exact absurd (hdd t (hdeq ▸ List.mem_cons_self t stk')) ht
          | cons n0 norm' =>
            refine ⟨norm', dd, ?_,
              fun x hx => hnorm x (List.mem_cons_of_mem n0 hx), hdd, hr⟩
            simpa using congrArg List.tail hstk
    · rw [cleanStep.eq_def, if_neg h1, if_neg h2]
      push_neg at h1
      refine ⟨e :: norm, dd, by rw [hstk]; rfl, ?_, hdd, hr⟩
      intro x hx
      rcases List.mem_cons.mp hx with hx | hx
      · subst hx; exact ⟨h1.1, h1.2, h2, he⟩
      · exact hnorm x hx

theorem cleanElems_stackOK {rooted : Bool} :
    ∀ (elems : List (List Char)) (stk : List (List Char)),
      (∀ e ∈ elems, '/' ∉ e) → stackOK rooted stk →
      stackOK rooted (cleanElems rooted stk elems) := by
  intro elems
  induction elems with
  | nil => intro stk _ h; exact h
  | cons e t ih =>
    intro stk hall h
    show stackOK rooted (cleanElems rooted (cleanStep rooted stk e) t)
    exact ih _ (fun x hx => hall x (List.mem_cons_of_mem e hx))
      (cleanStep_stackOK (hall e (List.mem_cons_self e t)) h)

theorem cleanElems_pushAll {rooted : Bool} :
    ∀ (l : List (List Char)) (stk : List (List Char)),
      (∀ x ∈ l, x ≠ [] ∧ x ≠ ['.'] ∧ x ≠ ['.', '.']) →
      cleanElems rooted stk l = l.reverse ++ stk := by
  intro l
  induction l with
  | nil => intro stk _; rfl
  | cons e t ih =>
    intro stk hall
    obtain ⟨h1, h2, h3⟩ := hall e (List.mem_cons_self e t)
    show cleanElems rooted (cleanStep rooted stk e) t = _
    rw [cleanStep.eq_def, if_neg (by simp [h1, h2]), if_neg h3,
      ih (e :: stk) (fun x hx => hall x (List.mem_cons_of_mem e hx))]
    simp

theorem cleanElems_ddPush :
    ∀ (d : List (List Char)) (stk : List (List Char)),
      (∀ x ∈ d, x = ['.', '.']) → (∀ x ∈ stk, x = ['.', '.']) →
      cleanElems false stk d = d.reverse ++ stk := by
  intro d
  induction d with
  | nil => intro stk _ _; rfl
  | cons e t ih =>
    intro stk hd hstk
    have he : e = ['.', '.'] := hd e (List.mem_cons_self e t)
    subst he
    have hstep : cleanStep false stk ['.', '.'] = ['.', '.'] :: stk := by
      cases stk with
      | nil => rfl
      | cons t' stk' =>
        have ht' : t' = ['.', '.'] := hstk t' (List.mem_cons_self t' stk')
        show (if t' = ['.', '.'] then ['.', '.'] :: t' :: stk' else stk') = _
        rw [if_pos ht']
    show cleanElems false (cleanStep false stk ['.', '.']) t = _
    rw [hstep]
    rw [ih (['.', '.'] :: stk) (fun x hx => hd x (List.mem_cons_of_mem _ hx))
      (fun x hx => by
        rcases List.mem_cons.mp hx with hx | hx
        · exact hx
        · exact hstk x hx)]
    simp

theorem cleanElems_append (rooted : Bool) (stk : List (List Char))
    (l1 l2 : List (List Char)) :
    cleanElems rooted stk (l1 ++ l2) =
      cleanElems rooted (cleanElems rooted stk l1) l2 := by
  unfold cleanElems
  exact List.foldl_append _ _ _ _

theorem cleanPath_spec (c : Char) (rest : List Char) :
    cleanPath (c :: rest) =
      renderPath (decide (c = '/'))
        ((cleanElems (decide (c = '/')) [] (splitOnChar '/' (c :: rest))).reverse) :=
  rfl

theorem stackOK_nil (rooted : Bool) : stackOK rooted [] :=
  ⟨[], [], rfl, by simp, by simp, fun _ => rfl⟩

theorem stackOK_elems {rooted : Bool} {stk : List (List Char)}
    (h : stackOK rooted stk) : ∀ x ∈ stk, x ≠ [] ∧ '/' ∉ x := by
  obtain ⟨norm, dd, hstk, hnorm, hdd, _⟩ := h
  intro x hx
  rw [hstk] at hx
  rcases List.mem_append.mp hx with hx | hx
  · exact ⟨(hnorm x hx).1, (hnorm x hx).2.2.2⟩
  · rw [hdd x hx]; exact ⟨by simp, by decide⟩

theorem renderPath_fixed {rooted : Bool} {stk : List (List Char)}
    (h : stackOK rooted stk) :
    cleanPath (renderPath rooted stk.reverse) = renderPath rooted stk.reverse := by
  obtain ⟨norm, dd, hstk, hnorm, hdd, hr⟩ := h
  by_cases hnil : stk = []
  · subst hnil
    cases rooted with
    | true => decide
    | false => decide
  · have hout_ne : stk.reverse ≠ [] := by simpa using hnil
    have helems : ∀ x ∈ stk.reverse, x ≠ [] ∧ '/' ∉ x := fun x hx =>
      stackOK_elems ⟨norm, dd, hstk, hnorm, hdd, hr⟩ x (List.mem_reverse.mp hx)
    have hs_ne : joinSlash stk.reverse ≠ [] :=
      joinSlash_ne_nil hout_ne (fun e he => (helems e he).1)
    have hsplit : splitOnChar '/' (joinSlash stk.reverse) = stk.reverse :=
      split_joinSlash _ hout_ne (fun e he => (helems e he).2)
    cases rooted with
    | true =>
      have hdd0 : dd = [] := hr rfl
      rw [hdd0, List.append_nil] at hstk
      have hrender : renderPath true stk.reverse = '/' :: joinSlash stk.reverse := by
        simp [renderPath, hs_ne]
      rw [hrender, cleanPath_spec]
      rw [show (decide ('/' = '/')) = true from by decide]
      have hsp : splitOnChar '/' ('/' :: joinSlash stk.reverse) = [] :: stk.reverse := by
        simp [splitOnChar, hsplit]
      rw [hsp]
      have hskip : cleanElems true [] ([] :: stk.reverse) = cleanElems true [] stk.reverse := rfl
      rw [hskip]
      rw [cleanElems_pushAll stk.reverse [] (fun x hx => by
        have hxs := hnorm x (by rw [← hstk]; exact List.mem_reverse.mp hx)
        exact ⟨hxs.1, hxs.2.1, hxs.2.2.1⟩)]
      simp only [List.append_nil, List.reverse_reverse]
      exact hrender
    | false =>
      have hout : stk.reverse = dd.reverse ++ norm.reverse := by
        rw [hstk, List.reverse_append]
      have hrender : renderPath false stk.reverse = joinSlash stk.reverse := by
        simp [renderPath, hs_ne]
      rw [hrender]
      obtain ⟨e1, out', hcons⟩ : ∃ e1 out', stk.reverse = e1 :: out' := by
        cases hc : stk.reverse with
        | nil => exact absurd hc hout_ne
        | cons x y => exact ⟨x, y, rfl⟩
      obtain ⟨a, e1', he1⟩ : ∃ a e1', e1 = a :: e1' := by
        have h1 := (helems e1 (hcons ▸ List.mem_cons_self e1 out')).1
        cases hc : e1 with
        | nil => exact absurd hc h1
        | cons x y => exact ⟨x, y, rfl⟩
      have hna : ¬ a = '/' := by
        intro heq
        subst heq
        have h2 := (helems e1 (hcons ▸ List.mem_cons_self e1 out')).2
        rw [he1] at h2
        exact h2 (List.mem_cons_self _ _)
      obtain ⟨s', hjs⟩ : ∃ s', joinSlash stk.reverse = a :: s' := by
        rw [hcons, he1]; exact joinSlash_head out'
      rw [hjs, cleanPath_spec]
      rw [show (decide (a = '/')) = false from by simp [hna]]
      have hsp2 : splitOnChar '/' (a :: s') = stk.reverse := by
        rw [← hjs]; exact hsplit
      rw [hsp2]
      have hclean : cleanElems false [] stk.reverse = stk := by
        rw [hout, cleanElems_append]
        have h1 : cleanElems false [] dd.reverse = dd := by
          rw [cleanElems_ddPush dd.reverse []
            (fun x hx => hdd x (List.mem_reverse.mp hx))
            (fun x hx => absurd hx (List.not_mem_nil x))]
          simp
        rw [h1]
        rw [cleanElems_pushAll norm.reverse dd (fun x hx => by
          have h2 := hnorm x (List.mem_reverse.mp hx)
          exact ⟨h2.1, h2.2.1, h2.2.2.1⟩)]
        rw [List.reverse_reverse]
        exact hstk.symm
      rw [hclean, hrender, hjs]

theorem cleanPath_idem (p : List Char) : cleanPath (cleanPath p) = cleanPath p := by
  cases p with
  | nil => decide
  | cons c rest =>
    rw [cleanPath_spec c rest]
    exact renderPath_fixed
      (cleanElems_stackOK (splitOnChar '/' (c :: rest)) []
        (splitOnChar_no_sep '/' (c :: rest)) (stackOK_nil _))

theorem goClean_idem (s : String) : goClean (goClean s) = goClean s :=
  congrArg String.mk (cleanPath_idem s.data)

theorem renderPath_ne_nil (rooted : Bool) (out : List (List Char)) :
    renderPath rooted out ≠ [] := by
  unfold renderPath
  cases rooted <;> by_cases h : joinSlash out = [] <;> simp [h]

theorem cleanPath_ne_nil (p : List Char) : cleanPath p ≠ [] := by
  cases p with
  | nil => decide
  | cons c rest => rw [cleanPath_spec]; exact renderPath_ne_nil _ _

theorem goClean_ne_empty (s : String) : goClean s ≠ "" := by
  intro h
  exact cleanPath_ne_nil s.data (congrArg String.data h)

theorem isAbs_data {s : String} (h : isAbs s = true) : ∃ r, s.data = '/' :: r := by
  unfold isAbs at h
  cases hd : s.data with
  | nil => rw [hd] at h; exact absurd h (by decide)
  | cons a r =>
    rw [hd] at h
    have ha : a = '/' := by simpa using h
    exact ⟨r, by rw [ha]⟩

theorem cleanPath_rooted_head (r : List Char) :
    ∃ t, cleanPath ('/' :: r) = '/' :: t := by
  rw [cleanPath_spec]
  rw [show (decide ('/' = '/')) = true from by decide]
  by_cases h : joinSlash ((cleanElems true [] (splitOnChar '/' ('/' :: r))).reverse) = []
  · exact ⟨[], by simp [renderPath, h]⟩
  · refine ⟨joinSlash ((cleanElems true [] (splitOnChar '/' ('/' :: r))).reverse), ?_⟩
    simp [renderPath, h]

theorem isAbs_goClean {s : String} (h : isAbs s = true) :
    isAbs (goClean s) = true := by
  obtain ⟨r, hr⟩ := isAbs_data h
  obtain ⟨t, ht⟩ := cleanPath_rooted_head r
  show isAbs (⟨cleanPath s.data⟩ : String) = true
  rw [hr, ht]
  rfl

theorem isAbs_goJoin {a : String} (b : String) (h : isAbs a = true) :
    isAbs (goJoin a b) = true := by
  obtain ⟨r, hr⟩ := isAbs_data h
  have hne : ¬ a = "" := by
    intro h0
    rw [h0] at hr
    exact List.noConfusion ((rfl : ("" : String).data = []) ▸ hr)
  unfold goJoin
  rw [if_neg hne, hr, List.cons_append]
  obtain ⟨t, ht⟩ := cleanPath_rooted_head (r ++ '/' :: b.data)
  rw [ht]
  rfl

theorem goClean_goJoin {a : String} (b : String) (ha : ¬ a = "") :
    goClean (goJoin a b) = goJoin a b := by
  unfold goJoin
  rw [if_neg ha]
  exact congrArg String.mk (cleanPath_idem _)

/-! ## Lemmas about the resolver -/

theorem metaModulePath_scan {e : Evaluator} {label : String}
    {entries : List MetadataEntry} {m : MetadataEntry}
    (hmeta : e.moduleMetadata = some entries)
    (hscan : scanMetadata (getModuleKeyName e.moduleName label) entries = some m) :
    metaModulePath e label = goClean (goJoin e.projectRootPath m.dir) := by
  simp [metaModulePath, hmeta, hscan]

theorem metaModulePath_nomatch {e : Evaluator} {label : String}
    (h : e.moduleMetadata = none ∨ ∃ entries, e.moduleMetadata = some entries ∧
      scanMetadata (getModuleKeyName e.moduleName label) entries = none) :
    metaModulePath e label = "" := by
  rcases h with h | ⟨entries, hmeta, hscan⟩
  · simp [metaModulePath, h]
  · simp [metaModulePath, hmeta, hscan]

theorem loadModule_with_path {e : Evaluator} {b : ModBlock} {p : String}
    (stop : Bool)
    (hl : ¬ b.label = "") (hs : ¬ extractSource b.attrs = "")
    (hres : resolveModulePath e b (extractSource b.attrs) = .ok p) :
    (∀ bs is, getModuleBlocks e.fs b p stop = .ok (bs, is) →
      loadModule e b stop = .ok (ModuleDefinition.mk b.label p b
        [HCLModule.mk e.projectRootPath p bs is]))
    ∧ (∀ ge, getModuleBlocks e.fs b p stop = .error ge →
      loadModule e b stop = .error (.moduleLoad (extractSource b.attrs)
        (.blocksFailed ge))) := by
  constructor
  · intro bs is hgb
    simp [loadModule, hl, hs, hres, hgb]
  · intro ge hgb
    simp [loadModule, hl, hs, hres, hgb]

theorem loadModule_err {e : Evaluator} {b : ModBlock} {err : LoadModuleErr}
    (stop : Bool)
    (hl : ¬ b.label = "") (hs : ¬ extractSource b.attrs = "")
    (hres : resolveModulePath e b (extractSource b.attrs) = .error err) :
    loadModule e b stop = .error err := by
  simp [loadModule, hl, hs, hres]

theorem loadModule_ok_definition {e : Evaluator} {b : ModBlock} {stop : Bool}
    {md : ModuleDefinition} (h : loadModule e b stop = .ok md) :
    md.definition = b := by
  by_cases hl : b.label = ""
  · simp [loadModule, hl] at h
  by_cases hs : extractSource b.attrs = ""
  · simp [loadModule, hl, hs] at h
  cases hres : resolveModulePath e b (extractSource b.attrs) with
  | error err => simp [loadModule, hl, hs, hres] at h
  | ok p =>
    cases hgb : getModuleBlocks e.fs b p stop with
    | error ge => simp [loadModule, hl, hs, hres, hgb] at h
    | ok pr =>
      obtain ⟨bs, is⟩ := pr
      simp [loadModule, hl, hs, hres, hgb] at h
      rw [← h]

theorem collectFileBlocks_ok (b : ModBlock) :
    ∀ (files : List HCLFile) (accB : List LoadedBlock) (accI : List Nat),
      collectFileBlocks b false files accB accI =
        .ok (accB ++ (files.filter (fun f => f.parseResult.isNone)).flatMap
              (fun f => f.fileBlocks.map (fun rb => LoadedBlock.mk rb b)),
          accI ++ (files.filter (fun f => f.parseResult.isNone)).flatMap
              (fun f => f.fileIgnores)) := by
  intro files
  induction files with
  | nil => intro accB accI; simp [collectFileBlocks]
  | cons f rest ih =>
    intro accB accI
    cases hp : f.parseResult with
    | some pe =>
      rw [show collectFileBlocks b false (f :: rest) accB accI =
        collectFileBlocks b false rest accB accI from by
          simp [collectFileBlocks, hp]]
      rw [ih accB accI]
      have hfilter : (f :: rest).filter (fun g => g.parseResult.isNone) =
          rest.filter (fun g => g.parseResult.isNone) := by
        simp [List.filter_cons, hp]
      rw [hfilter]
    | none =>
      rw [show collectFileBlocks b false (f :: rest) accB accI =
        collectFileBlocks b false rest
          (accB ++ f.fileBlocks.map (fun rb => LoadedBlock.mk rb b))
          (accI ++ f.fileIgnores) from by
          simp [collectFileBlocks, hp]]
      rw [ih _ _]
      have hfilter : (f :: rest).filter (fun g => g.parseResult.isNone) =
          f :: rest.filter (fun g => g.parseResult.isNone) := by
        simp [List.filter_cons, hp]
      rw [hfilter]
      simp [List.flatMap_cons, List.append_assoc]

theorem collectFileBlocks_fail (b : ModBlock) :
    ∀ (files : List HCLFile) (accB : List LoadedBlock) (accI : List Nat),
      (∃ f ∈ files, f.parseResult ≠ none) →
      ∃ pe, collectFileBlocks b true files accB accI = .error (.hclParse pe) := by
  intro files
  induction files with
  | nil =>
    intro accB accI h
    obtain ⟨f, hf, _⟩ := h
    exact absurd hf (List.not_mem_nil f)
  | cons f rest ih =>
    intro accB accI h
    cases hp : f.parseResult with
    | some pe => exact ⟨pe, by simp [collectFileBlocks, hp]⟩
    | none =>
      obtain ⟨g, hg, hgp⟩ := h
      rcases List.mem_cons.mp hg with hgf | hgr
      · subst hgf; exact absurd hp hgp
      · obtain ⟨pe, hpe⟩ := ih
          (accB ++ f.fileBlocks.map (fun rb => LoadedBlock.mk rb b))
          (accI ++ f.fileIgnores) ⟨g, hgr, hgp⟩
        refine ⟨pe, ?_⟩
        rw [show collectFileBlocks b true (f :: rest) accB accI =
          collectFileBlocks b true rest
            (accB ++ f.fileBlocks.map (fun rb => LoadedBlock.mk rb b))
            (accI ++ f.fileIgnores) from by simp [collectFileBlocks, hp]]
        exact hpe

/-- The source strings of the deduplicated `loadErrors` list. -/
def errSources (les : List ModuleLoadError) : List String :=
  les.map (fun x => x.source)

theorem loadModulesGo_mem_of_fail (e : Evaluator) (stop : Bool) :
    ∀ (l : List ModBlock) (defs : List ModuleDefinition)
      (les : List ModuleLoadError) (warns : List LoadModuleErr) (s : String),
      (s ∈ errSources les ∨ ∃ mb ∈ l, ¬ mb.label = "" ∧
        ∃ c, loadModule e mb stop = .error (.moduleLoad s c)) →
      s ∈ errSources (loadModulesGo e stop l defs les warns).2.1 := by
  intro l
  induction l with
  | nil =>
    intro defs les warns s h
    rcases h with h | ⟨mb, hmb, _⟩
    · exact h
    · exact absurd hmb (List.not_mem_nil mb)
  | cons mb rest ih =>
    intro defs les warns s h
    by_cases hl : mb.label = ""
    · rw [show loadModulesGo e stop (mb :: rest) defs les warns =
        loadModulesGo e stop rest defs les warns from by simp [loadModulesGo, hl]]
      apply ih
      rcases h with h | ⟨g, hg, hgl, c, hc⟩
      · exact Or.inl h
      · rcases List.mem_cons.mp hg with hgf | hgr
        · subst hgf; exact absurd hl hgl
        · exact Or.inr ⟨g, hgr, hgl, c, hc⟩
    · cases herr : loadModule e mb stop with
      | ok md =>
        rw [show loadModulesGo e stop (mb :: rest) defs les warns =
          loadModulesGo e stop rest (defs ++ [md]) les warns from by
            simp [loadModulesGo, hl, herr]]
        apply ih
        rcases h with h | ⟨g, hg, hgl, c, hc⟩
        · exact Or.inl h
        · rcases List.mem_cons.mp hg with hgf | hgr
          · subst hgf; rw [herr] at hc; exact absurd hc (by simp)
          · exact Or.inr ⟨g, hgr, hgl, c, hc⟩
      | error err =>
        cases err with
        | noLabel r =>
          rw [show loadModulesGo e stop (mb :: rest) defs les warns =
            loadModulesGo e stop rest defs les (warns ++ [.noLabel r]) from by
              simp [loadModulesGo, hl, herr]]
          apply ih
          rcases h with h | ⟨g, hg, hgl, c, hc⟩
          · exact Or.inl h
          · rcases List.mem_cons.mp hg with hgf | hgr
            · subst hgf; rw [herr] at hc; exact absurd hc (by simp)
            · exact Or.inr ⟨g, hgr, hgl, c, hc⟩
        | noSource r =>
          rw [show loadModulesGo e stop (mb :: rest) defs les warns =
            loadModulesGo e stop rest defs les (warns ++ [.noSource r]) from by
              simp [loadModulesGo, hl, herr]]
          apply ih
          rcases h with h | ⟨g, hg, hgl, c, hc⟩
          · exact Or.inl h
          · rcases List.mem_cons.mp hg with hgf | hgr
            · subst hgf; rw [herr] at hc; exact absurd hc (by simp)
            · exact Or.inr ⟨g, hgr, hgl, c, hc⟩
        | moduleLoad src c0 =>
          by_cases hdup : les.any (fun fm => fm.source = src)
          · rw [show loadModulesGo e stop (mb :: rest) defs les warns =
              loadModulesGo e stop rest defs les warns from by
                simp [loadModulesGo, hl, herr, hdup]]
            apply ih
            rcases h with h | ⟨g, hg, hgl, c, hc⟩
            · exact Or.inl h
            · rcases List.mem_cons.mp hg with hgf | hgr
              · subst hgf
                rw [herr] at hc
                have hse : s = src := by
                  have := hc
                  simp at this
                  exact this.1.symm
                subst hse
                obtain ⟨fm, hfm, hfe⟩ := List.any_eq_true.mp hdup
                have hfe2 : fm.source = s := by simpa using hfe
                exact Or.inl (List.mem_map.mpr ⟨fm, hfm, hfe2⟩)
              · exact Or.inr ⟨g, hgr, hgl, c, hc⟩
          · rw [show loadModulesGo e stop (mb :: rest) defs les warns =
              loadModulesGo e stop rest defs
                (les ++ [ModuleLoadError.mk src c0]) warns from by
                simp [loadModulesGo, hl, herr, hdup]]
            apply ih
            rcases h with h | ⟨g, hg, hgl, c, hc⟩
            · exact Or.inl (by
                rw [errSources, List.map_append]
                exact List.mem_append_left _ h)
            · rcases List.mem_cons.mp hg with hgf | hgr
              · subst hgf
                rw [herr] at hc
                have hse : s = src := by
                  have := hc
                  simp at this
                  exact this.1.symm
                subst hse
                exact Or.inl (by
                  rw [errSources, List.map_append]
                  exact List.mem_append_right _ (by simp))
              · exact Or.inr ⟨g, hgr, hgl, c, hc⟩

theorem loadModulesGo_sources_nodup (e : Evaluator) (stop : Bool) :
    ∀ (l : List ModBlock) (defs : List ModuleDefinition)
      (les : List ModuleLoadError) (warns : List LoadModuleErr),
      (errSources les).Nodup →
      (errSources (loadModulesGo e stop l defs les warns).2.1).Nodup := by
  intro l
  induction l with
  | nil => intro defs les warns h; exact h
  | cons mb rest ih =>
    intro defs les warns h
    by_cases hl : mb.label = ""
    · rw [show loadModulesGo e stop (mb :: rest) defs les warns =
        loadModulesGo e stop rest defs les warns from by simp [loadModulesGo, hl]]
      exact ih defs les warns h
    · cases herr : loadModule e mb stop with
      | ok md =>
        rw [show loadModulesGo e stop (mb :: rest) defs les warns =
          loadModulesGo e stop rest (defs ++ [md]) les warns from by
            simp [loadModulesGo, hl, herr]]
        exact ih _ les warns h
      | error err =>
        cases err with
        | noLabel r =>
          rw [show loadModulesGo e stop (mb :: rest) defs les warns =
            loadModulesGo e stop rest defs les (warns ++ [.noLabel r]) from by
              simp [loadModulesGo, hl, herr]]
          exact ih _ _ _ h
        | noSource r =>
          rw [show loadModulesGo e stop (mb :: rest) defs les warns =
            loadModulesGo e stop rest defs les (warns ++ [.noSource r]) from by
              simp [loadModulesGo, hl, herr]]
          exact ih _ _ _ h
        | moduleLoad src c0 =>
          by_cases hdup : les.any (fun fm => fm.source = src)
          · rw [show loadModulesGo e stop (mb :: rest) defs les warns =
              loadModulesGo e stop rest defs les warns from by
                simp [loadModulesGo, hl, herr, hdup]]
            exact ih _ _ _ h
          · rw [show loadModulesGo e stop (mb :: rest) defs les warns =
              loadModulesGo e stop rest defs
                (les ++ [ModuleLoadError.mk src c0]) warns from by
                simp [loadModulesGo, hl, herr, hdup]]
            apply ih
            have hnot : src ∉ errSources les := by
              intro hmem
              obtain ⟨fm, hfm, hfe⟩ := List.mem_map.mp hmem
              exact hdup (List.any_eq_true.mpr ⟨fm, hfm, by simp [hfe]⟩)
            have hmap : errSources (les ++ [ModuleLoadError.mk src c0]) =
                errSources les ++ [src] := by
              simp [errSources]
            rw [hmap]
            exact List.Nodup.append h (List.nodup_singleton src)
              (fun x hx hx2 => hnot ((by simpa using hx2 : x = src) ▸ hx))

theorem loadModulesGo_defs_mem (e : Evaluator) (stop : Bool) :
    ∀ (l : List ModBlock) (defs : List ModuleDefinition)
      (les : List ModuleLoadError) (warns : List LoadModuleErr)
      (md : ModuleDefinition),
      md ∈ (loadModulesGo e stop l defs les warns).1 →
      md ∈ defs ∨ ∃ mb ∈ l, loadModule e mb stop = .ok md := by
  intro l
  induction l with
  | nil =>
    intro defs les warns md h
    exact Or.inl h
  | cons mb rest ih =>
    intro defs les warns md h
    by_cases hl : mb.label = ""
    · rw [show loadModulesGo e stop (mb :: rest) defs les warns =
        loadModulesGo e stop rest defs les warns from by simp [loadModulesGo, hl]] at h
      rcases ih defs les warns md h with h2 | ⟨g, hg, hok⟩
      · exact Or.inl h2
      · exact Or.inr ⟨g, List.mem_cons_of_mem mb hg, hok⟩
    · cases herr : loadModule e mb stop with
      | ok md0 =>
        rw [show loadModulesGo e stop (mb :: rest) defs les warns =
          loadModulesGo e stop rest (defs ++ [md0]) les warns from by
            simp [loadModulesGo, hl, herr]] at h
        rcases ih _ les warns md h with h2 | ⟨g, hg, hok⟩
        · rcases List.mem_append.mp h2 with h3 | h3
          · exact Or.inl h3
          · have : md = md0 := by simpa using h3
            exact Or.inr ⟨mb, List.mem_cons_self mb rest, this ▸ herr⟩
        · exact Or.inr ⟨g, List.mem_cons_of_mem mb hg, hok⟩
      | error err =>
        cases err with
        | noLabel r =>
          rw [show loadModulesGo e stop (mb :: rest) defs les warns =
            loadModulesGo e stop rest defs les (warns ++ [.noLabel r]) from by
              simp [loadModulesGo, hl, herr]] at h
          rcases ih _ _ _ md h with h2 | ⟨g, hg, hok⟩
          · exact Or.inl h2
          · exact Or.inr ⟨g, List.mem_cons_of_mem mb hg, hok⟩
        | noSource r =>
          rw [show loadModulesGo e stop (mb :: rest) defs les warns =
            loadModulesGo e stop rest defs les (warns ++ [.noSource r]) from by
              simp [loadModulesGo, hl, herr]] at h
          rcases ih _ _ _ md h with h2 | ⟨g, hg, hok⟩
          · exact Or.inl h2
          · exact Or.inr ⟨g, List.mem_cons_of_mem mb hg, hok⟩
        | moduleLoad src c0 =>
          by_cases hdup : les.any (fun fm => fm.source = src)
          · rw [show loadModulesGo e stop (mb :: rest) defs les warns =
              loadModulesGo e stop rest defs les warns from by
                simp [loadModulesGo, hl, herr, hdup]] at h
            rcases ih _ _ _ md h with h2 | ⟨g, hg, hok⟩
            · exact Or.inl h2
            · exact Or.inr ⟨g, List.mem_cons_of_mem mb hg, hok⟩
          · rw [show loadModulesGo e stop (mb :: rest) defs les warns =
              loadModulesGo e stop rest defs
                (les ++ [ModuleLoadError.mk src c0]) warns from by
                simp [loadModulesGo, hl, herr, hdup]] at h
            rcases ih _ _ _ md h with h2 | ⟨g, hg, hok⟩
            · exact Or.inl h2
            · exact Or.inr ⟨g, List.mem_cons_of_mem mb hg, hok⟩

/-! ## Concrete sample data for witnesses and counterexamples -/

/-- A filesystem on which every directory reads back empty. -/
def fsEmpty : FS := ⟨fun _ _ => .ok []⟩

/-- A root-context evaluator with no module metadata. -/
def sampleEval : Evaluator := ⟨"root", "/p", "/m", none, [], id, fsEmpty⟩

/-- A root-context evaluator whose metadata caches module `x` under
`vendor/x`. -/
def metaEval : Evaluator :=
  ⟨"root", "/p", "/m", some [⟨"x", "vendor/x"⟩], [], id, fsEmpty⟩

/-- A module block whose source is a remote git URL. -/
def gitBlock : ModBlock :=
  ⟨"module", "x", [("source", CtyValue.str "git::https://example.com/mod")], "r5"⟩

/-- A module block with a local relative source. -/
def childBlock : ModBlock :=
  ⟨"module", "x", [("source", CtyValue.str "./child")], "r7"⟩

/-- A module block whose source attribute is the empty string. -/
def blockEmptySource : ModBlock :=
  ⟨"module", "m", [("source", CtyValue.str "")], "r0"⟩

/-- A module block with an empty label. -/
def blockNoLabel : ModBlock := ⟨"module", "", [], "r1"⟩

/-- Two distinct module blocks citing the same unresolvable source. -/
def badBlock1 : ModBlock :=
  ⟨"module", "a", [("source", CtyValue.str "s3::bucket/path")], "rA"⟩

/-- See `badBlock1`. -/
def badBlock2 : ModBlock :=
  ⟨"module", "b", [("source", CtyValue.str "s3::bucket/path")], "rB"⟩

/-- An evaluator whose block list holds the two duplicate-source blocks. -/
def dupEval : Evaluator :=
  ⟨"root", "/p", "/m", none, [badBlock1, badBlock2], id, fsEmpty⟩

/-- A file that parses cleanly. -/
def file1 : HCLFile := ⟨[1], [10], none⟩

/-- A file that fails to parse. -/
def file2 : HCLFile := ⟨[2], [20], some 5⟩

/-- Another file that parses cleanly. -/
def file3 : HCLFile := ⟨[3], [30], none⟩

/-- A directory holding the three files above. -/
def fsThree : FS := ⟨fun _ _ => .ok [file1, file2, file3]⟩

/-- A failing file that still returned a partial ignore directive. -/
def cexFile : HCLFile := ⟨[], [7], some 3⟩

/-- A directory holding only `cexFile`. -/
def fsCex : FS := ⟨fun _ _ => .ok [cexFile]⟩

/-- A generic module block used as the owning block in directory loads. -/
def sampleBlock : ModBlock :=
  ⟨"module", "x", [("source", CtyValue.str "./x")], "r4"⟩

/-- The ModuleDefinition produced for `childBlock` under `sampleEval`. -/
def mdChild : ModuleDefinition :=
  ⟨"x", goJoin "/m" "./child", childBlock,
    [⟨"/p", goJoin "/m" "./child", [], []⟩]⟩

/-! ## Claim C2 -/

/-- C2: when the metadata table holds an entry found for the Key Resolver's
output, the resolved directory is `clean(join(projectRoot, entry.Dir))`; the
local-relative-path check is never performed, so resolution cannot fail
with the `missing source code` cause — the only remaining outcomes are
success with the metadata directory or a directory-load failure. -/
theorem C2_metadataPriority (e : Evaluator) (b : ModBlock) (stop : Bool)
    (entries : List MetadataEntry) (m : MetadataEntry)
    (hl : ¬ b.label = "") (hs : ¬ extractSource b.attrs = "")
    (hmeta : e.moduleMetadata = some entries)
    (hscan : scanMetadata (getModuleKeyName e.moduleName b.label) entries = some m) :
    (∀ bs is, getModuleBlocks e.fs b
        (goClean (goJoin e.projectRootPath m.dir)) stop = .ok (bs, is) →
      loadModule e b stop = .ok (ModuleDefinition.mk b.label
        (goClean (goJoin e.projectRootPath m.dir)) b
        [HCLModule.mk e.projectRootPath
          (goClean (goJoin e.projectRootPath m.dir)) bs is]))
    ∧ (∀ ge, getModuleBlocks e.fs b
        (goClean (goJoin e.projectRootPath m.dir)) stop = .error ge →
      loadModule e b stop = .error (.moduleLoad (extractSource b.attrs)
        (.blocksFailed ge))) := by
  have hres : resolveModulePath e b (extractSource b.attrs) =
      .ok (goClean (goJoin e.projectRootPath m.dir)) := by
    unfold resolveModulePath
    rw [metaModulePath_scan hmeta hscan, if_neg (goClean_ne_empty _)]
  exact loadModule_with_path stop hl hs hres

/-- Witness for C2: a git-URL source resolves through the metadata cache. -/
theorem C2_metadataPriority_witness :
    loadModule metaEval gitBlock false = .ok (ModuleDefinition.mk "x"
      (goClean (goJoin "/p" "vendor/x")) gitBlock
      [HCLModule.mk "/p" (goClean (goJoin "/p" "vendor/x")) [] []]) :=
  (C2_metadataPriority metaEval gitBlock false [⟨"x", "vendor/x"⟩]
    ⟨"x", "vendor/x"⟩ (by decide) (by decide) rfl (by decide)).1 [] [] rfl

/-! ## Claim C3 -/

/-- C3: without a metadata match, a source that does not start with `./` or
`../` fails with a `moduleLoadError` carrying that source and the `missing
source code` cause, while a relative source resolves to
`join(currentModuleDir, source)`; concretely
`join("/proj/modules/a", "../shared") = "/proj/modules/shared"`. -/
theorem C3_localFallback (e : Evaluator) (b : ModBlock) (stop : Bool)
    (hl : ¬ b.label = "") (hs : ¬ extractSource b.attrs = "")
    (hnometa : e.moduleMetadata = none ∨ ∃ entries,
      e.moduleMetadata = some entries ∧
      scanMetadata (getModuleKeyName e.moduleName b.label) entries = none) :
    (isRelativeSource (extractSource b.attrs) = false →
      loadModule e b stop = .error (.moduleLoad (extractSource b.attrs)
        .missingSource))
    ∧ (isRelativeSource (extractSource b.attrs) = true →
      (∀ bs is, getModuleBlocks e.fs b
          (goJoin e.modulePath (extractSource b.attrs)) stop = .ok (bs, is) →
        loadModule e b stop = .ok (ModuleDefinition.mk b.label
          (goJoin e.modulePath (extractSource b.attrs)) b
          [HCLModule.mk e.projectRootPath
            (goJoin e.modulePath (extractSource b.attrs)) bs is]))
      ∧ (∀ ge, getModuleBlocks e.fs b
          (goJoin e.modulePath (extractSource b.attrs)) stop = .error ge →
        loadModule e b stop = .error (.moduleLoad (extractSource b.attrs)
          (.blocksFailed ge))))
    ∧ goJoin "/proj/modules/a" "../shared" = "/proj/modules/shared" := by
  have hmp := metaModulePath_nomatch hnometa
  refine ⟨?_, ?_, by decide⟩
  · intro hrel
    have hres : resolveModulePath e b (extractSource b.attrs) =
        .error (.moduleLoad (extractSource b.attrs) .missingSource) := by
      simp [resolveModulePath, hmp, hrel]
    exact loadModule_err stop hl hs hres
  · intro hrel
    have hres : resolveModulePath e b (extractSource b.attrs) =
        .ok (goJoin e.modulePath (extractSource b.attrs)) := by
      simp [resolveModulePath, hmp, hrel]
    exact loadModule_with_path stop hl hs hres

/-- Witness for C3: a git URL is rejected with `missing source code`; a
`./child` source resolves under the current module directory. -/
theorem C3_localFallback_witness :
    loadModule sampleEval gitBlock false =
      .error (.moduleLoad "git::https://example.com/mod" .missingSource)
    ∧ loadModule sampleEval childBlock false = .ok (ModuleDefinition.mk "x"
        (goJoin "/m" "./child") childBlock
        [HCLModule.mk "/p" (goJoin "/m" "./child") [] []]) :=
  ⟨(C3_localFallback sampleEval gitBlock false (by decide) (by decide)
      (Or.inl rfl)).1 (by decide),
   ((C3_localFallback sampleEval childBlock false (by decide) (by decide)
      (Or.inl rfl)).2.1 (by decide)).1 [] [] rfl⟩

/-! ## Claim C5 -/

/-- C5: when directory enumeration succeeds, the Directory Block Loader
with `stopOnParseError = false` returns exactly the blocks and ignores of
the files that parse without error (an all-failed directory yields an empty
success, not an error), while with `stopOnParseError = true` any parse
failure fails the whole call with no partial results. -/
theorem C5_partialFailureTolerance (fs : FS) (b : ModBlock) (path : String)
    (files : List HCLFile) :
    (fs.loadDirectory path false = .ok files →
      getModuleBlocks fs b path false = .ok
        ((files.filter (fun f => f.parseResult.isNone)).flatMap
            (fun f => f.fileBlocks.map (fun rb => LoadedBlock.mk rb b)),
          (files.filter (fun f => f.parseResult.isNone)).flatMap
            (fun f => f.fileIgnores)))
    ∧ (fs.loadDirectory path true = .ok files →
      (∃ f ∈ files, f.parseResult ≠ none) →
      ∃ pe, getModuleBlocks fs b path true = .error (.hclParse pe)) := by
  constructor
  · intro hdir
    have h := collectFileBlocks_ok b files [] []
    simp only [List.nil_append] at h
    rw [show getModuleBlocks fs b path false = collectFileBlocks b false files [] []
      from by simp [getModuleBlocks, hdir]]
    exact h
  · intro hdir hex
    obtain ⟨pe, hpe⟩ := collectFileBlocks_fail b files [] [] hex
    refine ⟨pe, ?_⟩
    rw [show getModuleBlocks fs b path true = collectFileBlocks b true files [] []
      from by simp [getModuleBlocks, hdir]]
    exact hpe

/-- Witness for C5: with one bad file out of three, the tolerant mode keeps
the other two files' blocks and ignores, and the strict mode fails. -/
theorem C5_partialFailureTolerance_witness :
    getModuleBlocks fsThree sampleBlock "d" false = .ok
      ([LoadedBlock.mk 1 sampleBlock, LoadedBlock.mk 3 sampleBlock], [10, 30])
    ∧ ∃ pe, getModuleBlocks fsThree sampleBlock "d" true = .error (.hclParse pe) := by
  constructor
  · have h := (C5_partialFailureTolerance fsThree sampleBlock "d"
      [file1, file2, file3]).1 rfl
    exact h
  · exact (C5_partialFailureTolerance fsThree sampleBlock "d"
      [file1, file2, file3]).2 rfl ⟨file2, by decide, by decide⟩

/-! ## Claim C6 -/

/-- C6 (amended): in tolerant mode the Directory Block Loader appends a
file's ignore directives only when that file parses without error; a file
whose parse returned an error is skipped entirely, and its partial ignores
are discarded along with its blocks. -/
theorem C6_ignoreCollection (b : ModBlock) (f : HCLFile) (rest : List HCLFile)
    (accB : List LoadedBlock) (accI : List Nat) :
    (∀ pe, f.parseResult = some pe →
      collectFileBlocks b false (f :: rest) accB accI =
        collectFileBlocks b false rest accB accI)
    ∧ (f.parseResult = none →
      collectFileBlocks b false (f :: rest) accB accI =
        collectFileBlocks b false rest
          (accB ++ f.fileBlocks.map (fun rb => LoadedBlock.mk rb b))
          (accI ++ f.fileIgnores)) := by
  constructor
  · intro pe hf
    simp [collectFileBlocks, hf]
  · intro hf
    simp [collectFileBlocks, hf]

/-- Witness for C6: the failing file's ignores are dropped. -/
theorem C6_ignoreCollection_witness :
    collectFileBlocks sampleBlock false [cexFile] [] [] =
      collectFileBlocks sampleBlock false [] [] [] :=
  (C6_ignoreCollection sampleBlock cexFile [] [] []).1 3 rfl

/-- Counterexample to C6 as stated: a directory holding one file that fails
to parse but returned the partial ignore `7`; in tolerant mode the loader
returns no ignores at all — the claimed unconditional append does not
happen. -/
theorem C6_ignoreCollection_cex :
    cexFile.parseResult = some 3
    ∧ cexFile.fileIgnores = [7]
    ∧ getModuleBlocks fsCex sampleBlock "d" false = .ok ([], []) :=
  ⟨rfl, rfl, rfl⟩

/-! ## Claim C8 -/

/-- C8: a module block instance with an empty label is dropped by the
Module-Block Loader loop without touching the success list, the
deduplicated load-error list, or the warning list. -/
theorem C8_emptyLabelSkip (e : Evaluator) (stop : Bool) (mb : ModBlock)
    (rest : List ModBlock) (defs : List ModuleDefinition)
    (les : List ModuleLoadError) (warns : List LoadModuleErr)
    (h : mb.label = "") :
    loadModulesGo e stop (mb :: rest) defs les warns =
      loadModulesGo e stop rest defs les warns := by
  simp [loadModulesGo, h]

/-- Witness for C8: an empty-label block alone produces empty results. -/
theorem C8_emptyLabelSkip_witness :
    loadModulesGo sampleEval false [blockNoLabel] [] [] [] = ([], [], []) := by
  rw [C8_emptyLabelSkip sampleEval false blockNoLabel [] [] [] [] rfl]
  rfl

/-! ## Claim C9 -/

/-- C9: the Module-Block Loader recovers every per-module failure at its
boundary: a failing instance leaves the success accumulator untouched and
only (possibly) appends one entry to the deduplicated load-error list or
the warning list, after which processing continues with the remaining
instances. -/
theorem C9_failureRecovery (e : Evaluator) (stop : Bool) (mb : ModBlock)
    (rest : List ModBlock) (defs : List ModuleDefinition)
    (les : List ModuleLoadError) (warns : List LoadModuleErr)
    (err : LoadModuleErr)
    (hl : ¬ mb.label = "")
    (herr : loadModule e mb stop = .error err) :
    ∃ les2 warns2,
      loadModulesGo e stop (mb :: rest) defs les warns =
        loadModulesGo e stop rest defs les2 warns2
      ∧ ((warns2 = warns ∧ (les2 = les ∨ ∃ le, les2 = les ++ [le]))
        ∨ (les2 = les ∧ ∃ w, warns2 = warns ++ [w])) := by
  cases err with
  | noLabel r =>
    exact ⟨les, warns ++ [.noLabel r], by simp [loadModulesGo, hl, herr],
      Or.inr ⟨rfl, .noLabel r, rfl⟩⟩
  | noSource r =>
    exact ⟨les, warns ++ [.noSource r], by simp [loadModulesGo, hl, herr],
      Or.inr ⟨rfl, .noSource r, rfl⟩⟩
  | moduleLoad src c =>
    by_cases hdup : les.any (fun fm => fm.source = src)
    · exact ⟨les, warns, by simp [loadModulesGo, hl, herr, hdup],
        Or.inl ⟨rfl, Or.inl rfl⟩⟩
    · exact ⟨les ++ [ModuleLoadError.mk src c], warns,
        by simp [loadModulesGo, hl, herr, hdup],
        Or.inl ⟨rfl, Or.inr ⟨ModuleLoadError.mk src c, rfl⟩⟩⟩

/-- Witness for C9: an unresolvable git source is recovered as one recorded
load error. -/
theorem C9_failureRecovery_witness : ∃ les2 warns2,
    loadModulesGo sampleEval false [gitBlock] [] [] [] =
      loadModulesGo sampleEval false [] [] les2 warns2
    ∧ ((warns2 = [] ∧ (les2 = [] ∨ ∃ le, les2 = [] ++ [le]))
      ∨ (les2 = [] ∧ ∃ w, warns2 = [] ++ [w])) :=
  C9_failureRecovery sampleEval false gitBlock [] [] [] []
    (.moduleLoad "git::https://example.com/mod" .missingSource)
    (by decide) rfl

/-! ## Claim C10 -/

/-- C10: a module block whose source attribute evaluates to the empty
string fails with the structural "could not read module source" error —
indistinguishable from an absent or non-string source attribute — and never
produces a (deduplicatable) `moduleLoadError`, so resolution never reaches
the metadata or relative-path steps. -/
theorem C10_emptySource (e : Evaluator) (b : ModBlock) (stop : Bool)
    (hl : ¬ b.label = "") (hs : extractSource b.attrs = "") :
    loadModule e b stop = .error (.noSource b.rng)
    ∧ (∀ src cause, ¬ loadModule e b stop = .error (.moduleLoad src cause))
    ∧ extractSource [("source", CtyValue.str "")] = ""
    ∧ extractSource ([] : List (String × CtyValue)) = ""
    ∧ extractSource [("source", CtyValue.nonString)] = "" := by
  have h1 : loadModule e b stop = .error (.noSource b.rng) := by
    simp [loadModule, hl, hs]
  refine ⟨h1, fun src cause hcon => ?_, rfl, rfl, rfl⟩
  rw [h1] at hcon
  simp at hcon

/-- Witness for C10: the empty-string source block fails structurally. -/
theorem C10_emptySource_witness :
    loadModule sampleEval blockEmptySource false =
      .error (.noSource blockEmptySource.rng) :=
  (C10_emptySource sampleEval blockEmptySource false (by decide) (by decide)).1

/-! ## Claim C7 -/

/-- C7: every successfully returned ModuleDefinition has a cleaned path
(a fixed point of `filepath.Clean`); an absolute path, given that the
evaluator's project-root and current-module directories are absolute; a
directory whose enumeration succeeded at resolution time; `Name` equal to
the block's label; `Definition` equal to the originating block; and
`Modules` equal to a one-element collection wrapping the loaded blocks and
ignores. -/
theorem C7_moduleDefinitionInvariants (e : Evaluator) (b : ModBlock)
    (stop : Bool) (md : ModuleDefinition)
    (hroot : isAbs e.projectRootPath = true)
    (hmod : isAbs e.modulePath = true)
    (hok : loadModule e b stop = .ok md) :
    goClean md.path = md.path
    ∧ isAbs md.path = true
    ∧ (∃ files, e.fs.loadDirectory md.path stop = .ok files)
    ∧ md.name = b.label
    ∧ md.definition = b
    ∧ ∃ bs is, md.modules = [HCLModule.mk e.projectRootPath md.path bs is]
        ∧ getModuleBlocks e.fs b md.path stop = .ok (bs, is) := by
  by_cases hl : b.label = ""
  · simp [loadModule, hl] at hok
  by_cases hs : extractSource b.attrs = ""
  · simp [loadModule, hl, hs] at hok
  cases hres : resolveModulePath e b (extractSource b.attrs) with
  | error err => simp [loadModule, hl, hs, hres] at hok
  | ok p =>
    cases hgb : getModuleBlocks e.fs b p stop with
    | error ge => simp [loadModule, hl, hs, hres, hgb] at hok
    | ok pr =>
      obtain ⟨bs, is⟩ := pr
      have hmd : ModuleDefinition.mk b.label p b
          [HCLModule.mk e.projectRootPath p bs is] = md := by
        have h2 := hok
        simp [loadModule, hl, hs, hres, hgb] at h2
        exact h2
      subst hmd
      have hdirok : ∃ files, e.fs.loadDirectory p stop = .ok files := by
        cases hld : e.fs.loadDirectory p stop with
        | error dc => simp [getModuleBlocks, hld] at hgb
        | ok files => exact ⟨files, rfl⟩
      by_cases hmp : metaModulePath e b.label = ""
      · by_cases hrel : isRelativeSource (extractSource b.attrs) = true
        · have hp : p = goJoin e.modulePath (extractSource b.attrs) := by
            have h3 := hres
            simp [resolveModulePath, hmp, hrel] at h3
            exact h3.symm
          have hmne : ¬ e.modulePath = "" := by
            intro h0
            rw [h0] at hmod
            exact absurd hmod (by decide)
          refine ⟨?_, ?_, hdirok, rfl, rfl, bs, is, rfl, hgb⟩
          · show goClean p = p
            rw [hp]
            exact goClean_goJoin _ hmne
          · show isAbs p = true
            rw [hp]
            exact isAbs_goJoin _ hmod
        · have h3 := hres
          simp [resolveModulePath, hmp, hrel] at h3
      · have hp : p = metaModulePath e b.label := by
          have h3 := hres
          simp [resolveModulePath, hmp] at h3
          exact h3.symm
        have hform : ∃ d, metaModulePath e b.label =
            goClean (goJoin e.projectRootPath d) := by
          cases hmm2 : e.moduleMetadata with
          | none => exact absurd (by simp [metaModulePath, hmm2]) hmp
          | some entries =>
            cases hscan : scanMetadata
                (getModuleKeyName e.moduleName b.label) entries with
            | none => exact absurd (by simp [metaModulePath, hmm2, hscan]) hmp
            | some mm =>
              exact ⟨mm.dir, by simp [metaModulePath, hmm2, hscan]⟩
        obtain ⟨d, hd⟩ := hform
        refine ⟨?_, ?_, hdirok, rfl, rfl, bs, is, rfl, hgb⟩
        · show goClean p = p
          rw [hp, hd]
          exact goClean_idem _
        · show isAbs p = true
          rw [hp, hd]
          exact isAbs_goClean (isAbs_goJoin _ hroot)

/-- Witness for C7: the definition produced for `childBlock`. -/
theorem C7_moduleDefinitionInvariants_witness :
    goClean mdChild.path = mdChild.path
    ∧ isAbs mdChild.path = true
    ∧ (∃ files, sampleEval.fs.loadDirectory mdChild.path false = .ok files)
    ∧ mdChild.name = childBlock.label
    ∧ mdChild.definition = childBlock
    ∧ ∃ bs is, mdChild.modules = [HCLModule.mk sampleEval.projectRootPath
        mdChild.path bs is]
        ∧ getModuleBlocks sampleEval.fs childBlock mdChild.path false = .ok (bs, is) :=
  C7_moduleDefinitionInvariants sampleEval childBlock false mdChild
    (by decide) (by decide) rfl

/-! ## Claim C4 -/

/-- C4: when two distinct module block instances both fail with a
`moduleLoadError` citing the same source string, the Module-Block Loader
records exactly one failure for that source across the whole call, and
neither instance contributes a ModuleDefinition to the output. -/
theorem C4_dedupFailures (e : Evaluator) (stop : Bool) (mb1 mb2 : ModBlock)
    (s : String) (c1 c2 : LoadCause)
    (h1 : mb1 ∈ expandedModuleBlocks e) (h2 : mb2 ∈ expandedModuleBlocks e)
    (hne : mb1 ≠ mb2)
    (hl1 : ¬ mb1.label = "") (hl2 : ¬ mb2.label = "")
    (he1 : loadModule e mb1 stop = .error (.moduleLoad s c1))
    (he2 : loadModule e mb2 stop = .error (.moduleLoad s c2)) :
    (errSources (loadModules e stop).2.1).count s = 1
    ∧ ∀ md ∈ (loadModules e stop).1,
        md.definition ≠ mb1 ∧ md.definition ≠ mb2 := by
  constructor
  · apply List.count_eq_one_of_mem
    · exact loadModulesGo_sources_nodup e stop (expandedModuleBlocks e) [] [] []
        (by simp [errSources])
    · exact loadModulesGo_mem_of_fail e stop (expandedModuleBlocks e) [] [] [] s
        (Or.inr ⟨mb1, h1, hl1, c1, he1⟩)
  · intro md hmd
    rcases loadModulesGo_defs_mem e stop (expandedModuleBlocks e) [] [] [] md hmd
      with hin | ⟨g, _, hok⟩
    · exact absurd hin (List.not_mem_nil md)
    · have hdef := loadModule_ok_definition hok
      constructor
      · intro hd
        rw [hdef] at hd
        rw [hd, he1] at hok
        exact Except.noConfusion hok
      · intro hd
        rw [hdef] at hd
        rw [hd, he2] at hok
        exact Except.noConfusion hok

/-- Witness for C4: two blocks citing `s3::bucket/path` yield one recorded
failure and no definitions. -/
theorem C4_dedupFailures_witness :
    (errSources (loadModules dupEval false).2.1).count "s3::bucket/path" = 1
    ∧ ∀ md ∈ (loadModules dupEval false).1,
        md.definition ≠ badBlock1 ∧ md.definition ≠ badBlock2 :=
  C4_dedupFailures dupEval false badBlock1 badBlock2 "s3::bucket/path"
    .missingSource .missingSource (by decide) (by decide) (by decide)
    (by decide) (by decide) rfl rfl
